import Mathlib

/-!
# An in-memory campaign repository and its HTTP handlers (`main.go`)

A shallow embedding of the repository type `DB` (a slice of campaigns and the
`LastIndex` counter), of its four methods, of the four request handlers and of
`initDB`, followed by the properties of the repository contract.

Conventions of the embedding:

* Go's `int` is taken at its 64-bit width; a value is an `Int` and the one
  arithmetic operation of the program, `d.LastIndex++`, wraps around in two's
  complement (`wrapInt`).
* A method with receiver `d *DB` is a function from the state before the call to
  its results paired with the state after the call.
* A slice is a `List`; the `nil` slice and the empty slice are both `[]`.
-/

namespace GoRestApi

/-! ## Machine integers -/

/-- Largest value of a 64-bit Go `int`. -/
def maxInt : Int := 2 ^ 63 - 1

/-- Smallest value of a 64-bit Go `int`. -/
def minInt : Int := -(2 ^ 63)

/-- Two's-complement reduction of a mathematical integer to a 64-bit Go `int`. -/
def wrapInt (x : Int) : Int := (x + 2 ^ 63) % 2 ^ 64 - 2 ^ 63

/-- The verb `%d` of package `fmt` applied to an `int`: the decimal digits, with a
leading minus sign for a negative value. -/
def formatInt (i : Int) : String :=
  if i < 0 then "-" ++ Nat.repr i.natAbs else Nat.repr i.natAbs

/-! ## Data model -/

/-- Type `SubCampaign` of `main.go`. -/
structure SubCampaign where
  ID : Int
  CampaignID : Int
  Name : String
  SubIO : String
  Countries : String
  Devices : String
deriving DecidableEq

/-- Type `Campaign` of `main.go`. -/
structure Campaign where
  ID : Int
  Name : String
  Company : String
  /-- Field written in capitals in the source, tagged `io` in JSON. -/
  Io : String
  House : Bool
  SubCampaigns : List SubCampaign
deriving DecidableEq

/-- The composite literal `Campaign{}`: every field at its zero value. -/
def Campaign.zero : Campaign :=
  { ID := 0, Name := "", Company := "", Io := "", House := false, SubCampaigns := [] }

/-- Type `DB` of `main.go`. -/
structure DB where
  Campaigns : List Campaign
  LastIndex : Int
deriving DecidableEq

/-! ## Repository methods -/

/-- Method `(d *DB) GetCampaigns`. -/
def DB.GetCampaigns (d : DB) : List Campaign × DB :=
  (d.Campaigns, d)

/-- The `for ... range` loop of `(d *DB) GetCampaign` over the campaigns still to
be visited, with the `return false, Campaign{}` that follows the loop. -/
def getCampaignLoop (id : Int) : List Campaign → Bool × Campaign
  | [] => (false, Campaign.zero)
  | campaign :: rest =>
    if campaign.ID = id then (true, campaign) else getCampaignLoop id rest

/-- Method `(d *DB) GetCampaign`. -/
def DB.GetCampaign (d : DB) (id : Int) : (Bool × Campaign) × DB :=
  (getCampaignLoop id d.Campaigns, d)

/-- Method `(d *DB) SaveCampaign`. -/
def DB.SaveCampaign (d : DB) (campaign : Campaign) : Campaign × DB :=
  let lastIndex := wrapInt (d.LastIndex + 1)
  let campaign := { campaign with ID := lastIndex }
  (campaign, { Campaigns := d.Campaigns ++ [campaign], LastIndex := lastIndex })

/-- The error built by `fmt.Errorf("Could not find campaign %d", id)`, as its
message. -/
def deleteError (id : Int) : String :=
  "Could not find campaign " ++ formatInt id

/-- The `for index, campaign := range d.Campaigns` loop of
`(d *DB) DeleteCampaign`, at position `index` with the campaigns from that
position on still to be visited, and the failing `return` after the loop. The
error result is `none` for `nil`. -/
def deleteCampaignLoop (d : DB) (id : Int) :
    Nat → List Campaign → (Campaign × Option String) × DB
  | _, [] => ((Campaign.zero, some (deleteError id)), d)
  | index, campaign :: rest =>
    if campaign.ID = id then
      ((campaign, none),
        { d with Campaigns := d.Campaigns.take index ++ d.Campaigns.drop (index + 1) })
    else deleteCampaignLoop d id (index + 1) rest

/-- Method `(d *DB) DeleteCampaign`. -/
def DB.DeleteCampaign (d : DB) (id : Int) : (Campaign × Option String) × DB :=
  deleteCampaignLoop d id 0 d.Campaigns

/-! ## Request handlers -/

/-- What a handler hands to the response writer: the text given to `http.Error`,
or the value given to the JSON encoder (the encoding itself is the library's). -/
inductive Body where
  | text (message : String)
  | campaign (c : Campaign)
  | campaigns (cs : List Campaign)
deriving DecidableEq

/-- An HTTP response: status code and payload. -/
structure Response where
  status : Nat
  body : Body
deriving DecidableEq

def StatusOK : Nat := 200
def StatusBadRequest : Nat := 400
def StatusNotFound : Nat := 404
def StatusInternalServerError : Nat := 500

/-- The call `http.Error(w, error, code)`: the reply has status `code` and carries
the text `error` (the line end that the library writes after the text is left out). -/
def httpError (error : String) (code : Nat) : Response :=
  { status := code, body := Body.text error }

/-- Handler `GetCampaigns`. -/
def GetCampaigns (db : DB) : Response × DB :=
  let (campaigns, db) := db.GetCampaigns
  ({ status := StatusOK, body := Body.campaigns campaigns }, db)

/-- Handler `GetCampaign`; `atoi` is the result of `strconv.Atoi(params["id"])`. -/
def GetCampaign (db : DB) (atoi : Except String Int) : Response × DB :=
  match atoi with
  | .error err => (httpError err StatusBadRequest, db)
  | .ok campaignID =>
    let ((ok, campaign), db) := db.GetCampaign campaignID
    if ok then ({ status := StatusOK, body := Body.campaign campaign }, db)
    else (httpError ("Campaign " ++ formatInt campaignID ++ " not found") StatusNotFound, db)

/-- Handler `SaveCampaign`; `decoded` is the result of decoding the request body. -/
def SaveCampaign (db : DB) (decoded : Except String Campaign) : Response × DB :=
  match decoded with
  | .error err => (httpError err StatusBadRequest, db)
  | .ok campaign =>
    let (savedCampaign, db) := db.SaveCampaign campaign
    ({ status := StatusOK, body := Body.campaign savedCampaign }, db)

/-- Handler `DeleteCampaign`; `atoi` is the result of `strconv.Atoi(params["id"])`. -/
def DeleteCampaign (db : DB) (atoi : Except String Int) : Response × DB :=
  match atoi with
  | .error err => (httpError err StatusBadRequest, db)
  | .ok campaignID =>
    match db.DeleteCampaign campaignID with
    | ((_, some err), db) => (httpError err StatusInternalServerError, db)
    | ((campaign, none), db) => ({ status := StatusOK, body := Body.campaign campaign }, db)

/-- Function `initDB`; `campaigns` is what `json.Unmarshal` left in the local
variable of that name after reading `db.json`. -/
def initDB (campaigns : List Campaign) : DB :=
  { Campaigns := campaigns, LastIndex := 100 }

/-! ## Sequences of calls -/

/-- A call of one of the two methods that write to the repository. -/
inductive Call where
  | save (campaign : Campaign)
  | delete (id : Int)
deriving DecidableEq

/-- The repository after one call. -/
def DB.step (d : DB) : Call → DB
  | Call.save campaign => (d.SaveCampaign campaign).2
  | Call.delete id => (d.DeleteCampaign id).2

/-- The repository after a sequence of calls, made in list order. -/
def DB.run (d : DB) : List Call → DB
  | [] => d
  | call :: rest => (d.step call).run rest

/-- What the `SaveCampaign` calls of a sequence observe, in call order: the value of
`LastIndex` just before the call, and the record the call returns. -/
def saveLog (d : DB) : List Call → List (Int × Campaign)
  | [] => []
  | Call.save campaign :: rest =>
    (d.LastIndex, (d.SaveCampaign campaign).1) :: saveLog (d.SaveCampaign campaign).2 rest
  | Call.delete id :: rest => saveLog (d.DeleteCampaign id).2 rest

/-- Number of `SaveCampaign` calls in a sequence. -/
def countSaves : List Call → Nat
  | [] => 0
  | Call.save _ :: rest => countSaves rest + 1
  | Call.delete _ :: rest => countSaves rest

/-- The identifiers held in the collection, in collection order. -/
def DB.ids (d : DB) : List Int := d.Campaigns.map Campaign.ID

/-- The identifiers in the collection are pairwise distinct and none exceeds the
counter. -/
def DB.DistinctBelowCounter (d : DB) : Prop :=
  d.ids.Nodup ∧ ∀ i ∈ d.ids, i ≤ d.LastIndex

/-- The predicate can be evaluated on a given repository. -/
instance instDecidableDistinctBelowCounter (d : DB) : Decidable d.DistinctBelowCounter := by
  unfold DB.DistinctBelowCounter
  infer_instance

/-! ## Lemmas on machine integers -/

theorem wrapInt_of_inRange (x : Int) (hlo : minInt ≤ x) (hhi : x ≤ maxInt) :
    wrapInt x = x := by
  unfold wrapInt minInt maxInt at *
  omega

theorem lt_wrapInt_succ (n : Int) (h : n < maxInt) : n < wrapInt (n + 1) := by
  unfold wrapInt maxInt at *
  omega

/-! ## Lemmas on the two scans -/

theorem exists_first_match (id : Int) (cs : List Campaign) (h : ∃ c ∈ cs, c.ID = id) :
    ∃ pre c post, cs = pre ++ c :: post ∧ (∀ x ∈ pre, x.ID ≠ id) ∧ c.ID = id := by
  induction cs with
  | nil => simp at h
  | cons a rest ih =>
    by_cases ha : a.ID = id
    · exact ⟨[], a, rest, by simp, by simp, ha⟩
    · have h' : ∃ c ∈ rest, c.ID = id := by
        obtain ⟨c, hc, hid⟩ := h
        rcases List.mem_cons.mp hc with rfl | hc
        · exact absurd hid ha
        · exact ⟨c, hc, hid⟩
      obtain ⟨pre, c, post, hsplit, hpre, hc⟩ := ih h'
      refine ⟨a :: pre, c, post, by simp [hsplit], ?_, hc⟩
      intro x hx
      rcases List.mem_cons.mp hx with rfl | hx
      · exact ha
      · exact hpre x hx

theorem getCampaignLoop_skip (id : Int) (pre rest : List Campaign)
    (hpre : ∀ x ∈ pre, x.ID ≠ id) :
    getCampaignLoop id (pre ++ rest) = getCampaignLoop id rest := by
  induction pre with
  | nil => rfl
  | cons a pre ih =>
    have ha : a.ID ≠ id := hpre a (List.mem_cons_self _ _)
    simp only [List.cons_append, getCampaignLoop, if_neg ha]
    exact ih (fun x hx => hpre x (List.mem_cons_of_mem _ hx))

theorem getCampaignLoop_absent (id : Int) (cs : List Campaign)
    (h : ∀ x ∈ cs, x.ID ≠ id) : getCampaignLoop id cs = (false, Campaign.zero) := by
  have := getCampaignLoop_skip id cs [] h
  simpa [getCampaignLoop] using this

theorem getCampaignLoop_first (id : Int) (pre post : List Campaign) (c : Campaign)
    (hpre : ∀ x ∈ pre, x.ID ≠ id) (hc : c.ID = id) :
    getCampaignLoop id (pre ++ c :: post) = (true, c) := by
  rw [getCampaignLoop_skip id pre _ hpre]
  simp [getCampaignLoop, hc]

theorem deleteCampaignLoop_absent (d : DB) (id : Int) (index : Nat) (rest : List Campaign)
    (h : ∀ x ∈ rest, x.ID ≠ id) :
    deleteCampaignLoop d id index rest = ((Campaign.zero, some (deleteError id)), d) := by
  induction rest generalizing index with
  | nil => rfl
  | cons a rest ih =>
    have ha : a.ID ≠ id := h a (List.mem_cons_self _ _)
    simp only [deleteCampaignLoop, if_neg ha]
    exact ih (index + 1) (fun x hx => h x (List.mem_cons_of_mem _ hx))

theorem deleteCampaignLoop_first (d : DB) (id : Int) (seen pre post : List Campaign)
    (c : Campaign) (hd : d.Campaigns = seen ++ (pre ++ c :: post))
    (hpre : ∀ x ∈ pre, x.ID ≠ id) (hc : c.ID = id) :
    deleteCampaignLoop d id seen.length (pre ++ c :: post)
      = ((c, none), { Campaigns := seen ++ (pre ++ post), LastIndex := d.LastIndex }) := by
  induction pre generalizing seen with
  | nil =>
    simp only [List.nil_append] at hd ⊢
    simp only [deleteCampaignLoop, if_pos hc, hd]
    simp
  | cons a pre ih =>
    have ha : a.ID ≠ id := hpre a (List.mem_cons_self _ _)
    simp only [List.cons_append, deleteCampaignLoop, if_neg ha]
    have := ih (seen ++ [a]) (by simpa using hd)
      (fun x hx => hpre x (List.mem_cons_of_mem _ hx))
    simpa using this

theorem deleteCampaign_absent (d : DB) (id : Int) (h : ∀ x ∈ d.Campaigns, x.ID ≠ id) :
    d.DeleteCampaign id = ((Campaign.zero, some (deleteError id)), d) :=
  deleteCampaignLoop_absent d id 0 d.Campaigns h

theorem deleteCampaign_first (d : DB) (id : Int) (pre post : List Campaign) (c : Campaign)
    (hd : d.Campaigns = pre ++ c :: post) (hpre : ∀ x ∈ pre, x.ID ≠ id) (hc : c.ID = id) :
    d.DeleteCampaign id
      = ((c, none), { Campaigns := pre ++ post, LastIndex := d.LastIndex }) := by
  have := deleteCampaignLoop_first d id [] pre post c (by simpa using hd) hpre hc
  simpa [DB.DeleteCampaign, hd] using this

/-! ## Lemmas on sequences of calls -/

theorem run_append (d : DB) (a b : List Call) : d.run (a ++ b) = (d.run a).run b := by
  induction a generalizing d with
  | nil => rfl
  | cons call a ih => exact ih (d.step call)

theorem saveLog_append (d : DB) (a b : List Call) :
    saveLog d (a ++ b) = saveLog d a ++ saveLog (d.run a) b := by
  induction a generalizing d with
  | nil => rfl
  | cons call a ih =>
    cases call with
    | save c =>
      show _ :: saveLog (d.SaveCampaign c).2 (a ++ b) = _
      rw [ih]
      rfl
    | delete id => exact ih (d.DeleteCampaign id).2

theorem countSaves_replicate_save (m : Nat) (c : Campaign) :
    countSaves (List.replicate m (Call.save c)) = m := by
  induction m with
  | zero => rfl
  | succ m ih => simp only [List.replicate_succ, countSaves, ih]

theorem deleteCampaign_cases (d : DB) (id : Int) :
    (d.DeleteCampaign id).2 = d
      ∨ ∃ pre c post, d.Campaigns = pre ++ c :: post
          ∧ (d.DeleteCampaign id).2 = { Campaigns := pre ++ post, LastIndex := d.LastIndex } := by
  by_cases h : ∃ x ∈ d.Campaigns, x.ID = id
  · obtain ⟨pre, c, post, hsplit, hpre, hc⟩ := exists_first_match id d.Campaigns h
    right
    exact ⟨pre, c, post, hsplit, by rw [deleteCampaign_first d id pre post c hsplit hpre hc]⟩
  · left
    rw [deleteCampaign_absent d id (fun x hx hid => h ⟨x, hx, hid⟩)]

theorem deleteCampaign_lastIndex (d : DB) (id : Int) :
    (d.DeleteCampaign id).2.LastIndex = d.LastIndex := by
  rcases deleteCampaign_cases d id with h | ⟨pre, c, post, _, h⟩ <;> rw [h]

theorem deleteCampaign_ids_sublist (d : DB) (id : Int) :
    (d.DeleteCampaign id).2.ids.Sublist d.ids := by
  rcases deleteCampaign_cases d id with h | ⟨pre, c, post, hsplit, h⟩
  · rw [h]
  · rw [h]
    simp only [DB.ids, hsplit, List.map_append, List.map_cons]
    exact List.Sublist.append (List.Sublist.refl _) (List.sublist_cons_self _ _)

theorem run_lastIndex (d : DB) (calls : List Call) (hlo : minInt ≤ d.LastIndex)
    (hhi : d.LastIndex + countSaves calls ≤ maxInt) :
    (d.run calls).LastIndex = d.LastIndex + countSaves calls := by
  induction calls generalizing d with
  | nil => simp [DB.run, countSaves]
  | cons call rest ih =>
    cases call with
    | save c =>
      simp only [countSaves, Nat.cast_add, Nat.cast_one] at hhi ⊢
      have hw : wrapInt (d.LastIndex + 1) = d.LastIndex + 1 :=
        wrapInt_of_inRange _ (by omega) (by omega)
      have hstep : (d.step (Call.save c)).LastIndex = d.LastIndex + 1 := hw
      simp only [DB.run]
      rw [ih (d.step (Call.save c)) (by rw [hstep]; omega) (by rw [hstep]; omega), hstep]
      omega
    | delete id =>
      simp only [countSaves] at hhi ⊢
      have hstep : (d.step (Call.delete id)).LastIndex = d.LastIndex :=
        deleteCampaign_lastIndex d id
      simp only [DB.run]
      rw [ih (d.step (Call.delete id)) (by rw [hstep]; exact hlo) (by rw [hstep]; exact hhi),
        hstep]

theorem saveLog_ids (d : DB) (calls : List Call) (hlo : minInt ≤ d.LastIndex)
    (hhi : d.LastIndex + countSaves calls ≤ maxInt) :
    (saveLog d calls).map (fun p => (p.1, p.2.ID))
      = (List.range (countSaves calls)).map
          (fun k : Nat => (d.LastIndex + (k : Int), d.LastIndex + (k : Int) + 1)) := by
  induction calls generalizing d with
  | nil => simp [saveLog, countSaves]
  | cons call rest ih =>
    cases call with
    | save c =>
      simp only [countSaves, Nat.cast_add, Nat.cast_one] at hhi
      have hw : wrapInt (d.LastIndex + 1) = d.LastIndex + 1 :=
        wrapInt_of_inRange _ (by omega) (by omega)
      have hstep : (d.SaveCampaign c).2.LastIndex = d.LastIndex + 1 := hw
      have hid : (d.SaveCampaign c).1.ID = d.LastIndex + 1 := hw
      simp only [saveLog, countSaves, List.map_cons, List.range_succ_eq_map, List.map_map]
      rw [ih (d.SaveCampaign c).2 (by rw [hstep]; omega) (by rw [hstep]; omega), hstep, hid]
      refine congrArg₂ List.cons (by simp) (List.map_congr_left (fun k _ => ?_))
      simp only [Function.comp, Nat.cast_succ]
      refine Prod.ext ?_ ?_ <;> simp <;> omega
    | delete id =>
      simp only [countSaves] at hhi
      have hstep : (d.DeleteCampaign id).2.LastIndex = d.LastIndex :=
        deleteCampaign_lastIndex d id
      simp only [saveLog, countSaves]
      rw [ih (d.DeleteCampaign id).2 (by rw [hstep]; exact hlo) (by rw [hstep]; exact hhi),
        hstep]

theorem run_saves_campaigns (d : DB) (cs : List Campaign) :
    (d.run (cs.map Call.save)).Campaigns
      = d.Campaigns ++ (saveLog d (cs.map Call.save)).map Prod.snd := by
  induction cs generalizing d with
  | nil => simp [DB.run, saveLog]
  | cons c cs ih =>
    simp only [List.map_cons, DB.run, DB.step, saveLog, ih]
    simp [DB.SaveCampaign]

theorem saveLog_saves_records (d : DB) (cs : List Campaign) :
    List.Forall₂ (fun c stored => stored = { c with ID := stored.ID }) cs
      ((saveLog d (cs.map Call.save)).map Prod.snd) := by
  induction cs generalizing d with
  | nil => simp [saveLog]
  | cons c cs ih =>
    simp only [List.map_cons, saveLog]
    exact List.Forall₂.cons rfl (ih _)

/-! ## Lemmas on the identifier invariant -/

theorem mem_ids_iff (d : DB) (i : Int) : i ∈ d.ids ↔ ∃ x ∈ d.Campaigns, x.ID = i := by
  simp [DB.ids]

theorem saveCampaign_ids (d : DB) (c : Campaign) :
    (d.SaveCampaign c).2.ids = d.ids ++ [wrapInt (d.LastIndex + 1)] := by
  simp [DB.ids, DB.SaveCampaign]

theorem saveCampaign_distinctBelowCounter (d : DB) (c : Campaign)
    (h : d.DistinctBelowCounter) (hn : d.LastIndex < maxInt) :
    (d.SaveCampaign c).2.DistinctBelowCounter := by
  have hlt := lt_wrapInt_succ d.LastIndex hn
  have hcounter : (d.SaveCampaign c).2.LastIndex = wrapInt (d.LastIndex + 1) := rfl
  unfold DB.DistinctBelowCounter
  rw [saveCampaign_ids, hcounter]
  refine ⟨List.Nodup.append h.1 (List.nodup_singleton _) ?_, fun i hi => ?_⟩
  · rw [List.disjoint_singleton]
    intro hmem
    have := h.2 _ hmem
    omega
  · rcases List.mem_append.mp hi with hi | hi
    · have := h.2 i hi
      omega
    · rw [List.mem_singleton.mp hi]

theorem deleteCampaign_distinctBelowCounter (d : DB) (id : Int)
    (h : d.DistinctBelowCounter) : (d.DeleteCampaign id).2.DistinctBelowCounter := by
  have hsub := deleteCampaign_ids_sublist d id
  unfold DB.DistinctBelowCounter
  rw [deleteCampaign_lastIndex]
  exact ⟨h.1.sublist hsub, fun i hi => h.2 i (hsub.subset hi)⟩

theorem run_distinctBelowCounter (d : DB) (calls : List Call) (h : d.DistinctBelowCounter)
    (hlo : minInt ≤ d.LastIndex) (hhi : d.LastIndex + countSaves calls ≤ maxInt) :
    (d.run calls).DistinctBelowCounter := by
  induction calls generalizing d with
  | nil => exact h
  | cons call rest ih =>
    cases call with
    | save c =>
      simp only [countSaves, Nat.cast_add, Nat.cast_one] at hhi
      have hw : wrapInt (d.LastIndex + 1) = d.LastIndex + 1 :=
        wrapInt_of_inRange _ (by omega) (by omega)
      have hstep : (d.step (Call.save c)).LastIndex = d.LastIndex + 1 := hw
      exact ih (d.step (Call.save c))
        (saveCampaign_distinctBelowCounter d c h (by omega))
        (by rw [hstep]; omega) (by rw [hstep]; omega)
    | delete id =>
      simp only [countSaves] at hhi
      have hstep : (d.step (Call.delete id)).LastIndex = d.LastIndex :=
        deleteCampaign_lastIndex d id
      exact ih (d.step (Call.delete id)) (deleteCampaign_distinctBelowCounter d id h)
        (by rw [hstep]; exact hlo) (by rw [hstep]; exact hhi)

/-! ## The repository contract -/

/-- C1, refuted as stated: with the counter at the largest `int`, the identifier
assigned by `SaveCampaign` and the counter afterwards are the smallest `int`, not
the counter before plus one. -/
theorem saveCampaign_wraps_at_maxInt :
    (DB.SaveCampaign { Campaigns := [], LastIndex := maxInt } Campaign.zero).1.ID = minInt
      ∧ (DB.SaveCampaign { Campaigns := [], LastIndex := maxInt } Campaign.zero).1.ID
          ≠ maxInt + 1
      ∧ (DB.SaveCampaign { Campaigns := [], LastIndex := maxInt } Campaign.zero).2.LastIndex
          ≠ maxInt + 1 := by
  decide

/-- C1, amended: `SaveCampaign` called on the repository `(cs, n)` with the campaign
`c` always returns; the record returned is `c` with its identifier overwritten by
the value of `d.LastIndex++` in Go's `int`, every other field kept; the collection
afterwards is `cs` followed by that record and the counter is the assigned
identifier. The assigned identifier is `n + 1` for every counter `n` below the
largest `int`, and the smallest `int` when `n` is the largest. The identifier
carried by the input has no effect: two inputs that differ only there give the same
record and the same state. -/
theorem saveCampaign_spec (cs : List Campaign) (n : Int) (c : Campaign) :
    DB.SaveCampaign { Campaigns := cs, LastIndex := n } c
        = ({ c with ID := wrapInt (n + 1) },
            { Campaigns := cs ++ [{ c with ID := wrapInt (n + 1) }],
              LastIndex := wrapInt (n + 1) })
      ∧ (∀ i : Int,
          DB.SaveCampaign { Campaigns := cs, LastIndex := n } { c with ID := i }
            = DB.SaveCampaign { Campaigns := cs, LastIndex := n } c)
      ∧ (minInt ≤ n ∧ n < maxInt → wrapInt (n + 1) = n + 1)
      ∧ (n = maxInt → wrapInt (n + 1) = minInt) := by
  refine ⟨rfl, fun _ => rfl, fun h => ?_, fun h => ?_⟩
  · have := h.2
    exact wrapInt_of_inRange (n + 1) (by omega) (by omega)
  · rw [h]
    decide

/-- C1 (amended) at the startup counter: the first record saved gets identifier
101. -/
theorem saveCampaign_spec_witness :
    DB.SaveCampaign { Campaigns := [], LastIndex := 100 } Campaign.zero
        = ({ Campaign.zero with ID := 101 },
            { Campaigns := [{ Campaign.zero with ID := 101 }], LastIndex := 101 }) := by
  have h := saveCampaign_spec [] 100 Campaign.zero
  rw [h.2.2.1 (by decide)] at h
  exact h.1

/-- C6. `DeleteCampaign(id)` returns an error exactly when no campaign of the
collection has identifier `id`. In that case the message is
`Could not find campaign ` followed by `id` in decimal, the record returned is
`Campaign{}`, and collection and counter are unchanged. Otherwise the record
returned is the first campaign with identifier `id`, the collection afterwards is
the old one without that one element (the others in their old order), and the
counter is unchanged. -/
theorem deleteCampaign_spec (d : DB) (id : Int) :
    ((d.DeleteCampaign id).1.2 ≠ none ↔ ∀ x ∈ d.Campaigns, x.ID ≠ id)
      ∧ ((∀ x ∈ d.Campaigns, x.ID ≠ id) →
          d.DeleteCampaign id
            = ((Campaign.zero, some ("Could not find campaign " ++ formatInt id)), d))
      ∧ ((∃ x ∈ d.Campaigns, x.ID = id) →
          ∃ pre c post, d.Campaigns = pre ++ c :: post ∧ (∀ x ∈ pre, x.ID ≠ id) ∧ c.ID = id
            ∧ d.DeleteCampaign id
                = ((c, none), { Campaigns := pre ++ post, LastIndex := d.LastIndex })) := by
  have hfail : (∀ x ∈ d.Campaigns, x.ID ≠ id) →
      d.DeleteCampaign id
        = ((Campaign.zero, some ("Could not find campaign " ++ formatInt id)), d) :=
    fun h => deleteCampaign_absent d id h
  have hok : (∃ x ∈ d.Campaigns, x.ID = id) →
      ∃ pre c post, d.Campaigns = pre ++ c :: post ∧ (∀ x ∈ pre, x.ID ≠ id) ∧ c.ID = id
        ∧ d.DeleteCampaign id
            = ((c, none), { Campaigns := pre ++ post, LastIndex := d.LastIndex }) := by
    intro h
    obtain ⟨pre, c, post, hsplit, hpre, hc⟩ := exists_first_match id d.Campaigns h
    exact ⟨pre, c, post, hsplit, hpre, hc, deleteCampaign_first d id pre post c hsplit hpre hc⟩
  refine ⟨⟨fun herr => ?_, fun h => ?_⟩, hfail, hok⟩
  · by_contra hne
    have hex : ∃ x ∈ d.Campaigns, x.ID = id := by
      by_contra hno
      exact hne (fun x hx hid => hno ⟨x, hx, hid⟩)
    obtain ⟨pre, c, post, _, _, _, heq⟩ := hok hex
    rw [heq] at herr
    exact herr rfl
  · rw [hfail h]
    simp

/-- C6 on a two-record collection: deleting the absent identifier 7 fails with the
message `Could not find campaign 7` and leaves the repository as it was. -/
theorem deleteCampaign_spec_witness :
    DB.DeleteCampaign
        { Campaigns := [{ Campaign.zero with ID := 1 }, { Campaign.zero with ID := 2 }],
          LastIndex := 100 } 7
      = ((Campaign.zero, some "Could not find campaign 7"),
          { Campaigns := [{ Campaign.zero with ID := 1 }, { Campaign.zero with ID := 2 }],
            LastIndex := 100 }) :=
  (deleteCampaign_spec
    { Campaigns := [{ Campaign.zero with ID := 1 }, { Campaign.zero with ID := 2 }],
      LastIndex := 100 } 7).2.1 (by decide)

/-- C8. `GetCampaign(id)` reports `found = true` exactly when some campaign of the
collection has identifier `id`; the record returned is then the first such campaign
in collection order; otherwise it is `Campaign{}` (identifier 0, empty strings,
flag false, no sub-campaigns). The repository is the same after the call. -/
theorem getCampaign_spec (d : DB) (id : Int) :
    ((d.GetCampaign id).1.1 = true ↔ ∃ x ∈ d.Campaigns, x.ID = id)
      ∧ ((d.GetCampaign id).1.1 = true →
          ∃ pre post, d.Campaigns = pre ++ (d.GetCampaign id).1.2 :: post
            ∧ (∀ x ∈ pre, x.ID ≠ id) ∧ (d.GetCampaign id).1.2.ID = id)
      ∧ ((d.GetCampaign id).1.1 = false →
          (d.GetCampaign id).1.2
            = { ID := 0, Name := "", Company := "", Io := "", House := false,
                SubCampaigns := [] })
      ∧ (d.GetCampaign id).2 = d := by
  by_cases h : ∃ x ∈ d.Campaigns, x.ID = id
  · obtain ⟨pre, c, post, hsplit, hpre, hc⟩ := exists_first_match id d.Campaigns h
    have hget : (d.GetCampaign id).1 = (true, c) := by
      simp only [DB.GetCampaign, hsplit]
      exact getCampaignLoop_first id pre post c hpre hc
    refine ⟨⟨fun _ => h, fun _ => by rw [hget]⟩, fun _ => ?_, fun hf => ?_, rfl⟩
    · rw [hget]
      exact ⟨pre, post, hsplit, hpre, hc⟩
    · rw [hget] at hf
      cases hf
  · have hno : ∀ x ∈ d.Campaigns, x.ID ≠ id := fun x hx hid => h ⟨x, hx, hid⟩
    have hget : (d.GetCampaign id).1 = (false, Campaign.zero) :=
      getCampaignLoop_absent id d.Campaigns hno
    refine ⟨⟨fun ht => ?_, fun hex => absurd hex h⟩, fun ht => ?_, fun _ => ?_, rfl⟩
    · rw [hget] at ht
      cases ht
    · rw [hget] at ht
      cases ht
    · rw [hget]
      rfl

/-- C8 on a collection holding identifier 2 twice: the lookup finds it. -/
theorem getCampaign_spec_witness :
    (DB.GetCampaign
        { Campaigns := [{ Campaign.zero with ID := 1 }, { Campaign.zero with ID := 2 },
            { Campaign.zero with ID := 2, Name := "later" }],
          LastIndex := 100 } 2).1.1 = true :=
  (getCampaign_spec
    { Campaigns := [{ Campaign.zero with ID := 1 }, { Campaign.zero with ID := 2 },
        { Campaign.zero with ID := 2, Name := "later" }],
      LastIndex := 100 } 2).1.mpr ⟨{ Campaign.zero with ID := 2 }, by decide, by decide⟩

/-- C9. When no campaign of the collection has identifier `id` and the path
parameter parses to `id`, the get-by-id handler answers 404 with the text
`Campaign <id> not found`, the delete handler answers 500 with the text
`Could not find campaign <id>`, and both leave the repository as it was. -/
theorem handlers_absent_id (d : DB) (id : Int) (h : ∀ x ∈ d.Campaigns, x.ID ≠ id) :
    GetCampaign d (Except.ok id)
        = ({ status := 404, body := Body.text ("Campaign " ++ formatInt id ++ " not found") }, d)
      ∧ DeleteCampaign d (Except.ok id)
        = ({ status := 500, body := Body.text ("Could not find campaign " ++ formatInt id) },
            d) := by
  constructor
  · have hget : d.GetCampaign id = ((false, Campaign.zero), d) := by
      simp only [DB.GetCampaign, getCampaignLoop_absent id d.Campaigns h]
    simp only [GetCampaign, hget]
    rfl
  · simp only [DeleteCampaign, deleteCampaign_absent d id h]
    rfl

/-- C9 for identifier 999 on the empty store. -/
theorem handlers_absent_id_witness :
    GetCampaign (initDB []) (Except.ok 999)
        = ({ status := 404, body := Body.text "Campaign 999 not found" }, initDB [])
      ∧ DeleteCampaign (initDB []) (Except.ok 999)
        = ({ status := 500, body := Body.text "Could not find campaign 999" }, initDB []) :=
  handlers_absent_id (initDB []) 999 (by decide)

/-- C2, refuted as stated: from the startup state with an empty seed, the last of
`2 ^ 63 - 100` consecutive `SaveCampaign` calls finds the counter at the largest
`int` and returns the smallest one, which is not greater than the counter before
the call. -/
theorem saveLog_counter_overflow :
    ∃ p ∈ saveLog (initDB [])
        (List.replicate (2 ^ 63 - 101) (Call.save Campaign.zero) ++ [Call.save Campaign.zero]),
      p.1 = maxInt ∧ p.2.ID = minInt ∧ ¬ p.1 < p.2.ID := by
  have hcount := countSaves_replicate_save (2 ^ 63 - 101) Campaign.zero
  have hrun : ((initDB []).run
      (List.replicate (2 ^ 63 - 101) (Call.save Campaign.zero))).LastIndex = maxInt := by
    rw [run_lastIndex (initDB []) _ (by decide) (by rw [hcount]; decide), hcount]
    decide
  have hwrap : wrapInt (maxInt + 1) = minInt := by decide
  refine ⟨(maxInt, { Campaign.zero with ID := minInt }), ?_, rfl, rfl, by decide⟩
  rw [saveLog_append]
  refine List.mem_append_right _ ?_
  simp only [saveLog, DB.SaveCampaign, hrun, hwrap]
  exact List.mem_singleton_self _

/-- C2, amended: from the startup state built by `initDB` on any seed, along every
sequence of `SaveCampaign` and `DeleteCampaign` calls with at most `2 ^ 63 - 101`
`SaveCampaign` calls (the counter does not pass the largest `int`), each
`SaveCampaign` returns an identifier strictly greater than the counter just before
the call and strictly greater than every identifier returned by an earlier
`SaveCampaign`, and the identifiers returned are 101, 102, ... in call order: the
k-th insert returns `100 + k`, whatever deletes are interleaved. -/
theorem saveLog_startup (seed : List Campaign) (calls : List Call)
    (h : countSaves calls ≤ 2 ^ 63 - 101) :
    (∀ p ∈ saveLog (initDB seed) calls, p.1 < p.2.ID)
      ∧ (saveLog (initDB seed) calls).Pairwise (fun p q => p.2.ID < q.2.ID)
      ∧ (saveLog (initDB seed) calls).map (fun p => p.2.ID)
          = (List.range (countSaves calls)).map (fun k : Nat => (100 : Int) + ((k : Int) + 1)) := by
  have hhi : (initDB seed).LastIndex + countSaves calls ≤ maxInt := by
    have : (initDB seed).LastIndex = 100 := rfl
    rw [this]
    unfold maxInt
    omega
  have hlo : minInt ≤ (initDB seed).LastIndex := by
    show minInt ≤ 100
    decide
  have hlog := saveLog_ids (initDB seed) calls hlo hhi
  have hids : (saveLog (initDB seed) calls).map (fun p => p.2.ID)
      = (List.range (countSaves calls)).map
          (fun k : Nat => (100 : Int) + ((k : Int) + 1)) := by
    have := congrArg (List.map Prod.snd) hlog
    simp only [List.map_map] at this
    rw [show (fun p : Int × Campaign => p.2.ID) = Prod.snd ∘ (fun p => (p.1, p.2.ID)) from rfl,
      this]
    refine List.map_congr_left (fun k _ => ?_)
    show (100 : Int) + (k : Int) + 1 = 100 + ((k : Int) + 1)
    omega
  refine ⟨fun p hp => ?_, ?_, hids⟩
  · have hmem : (p.1, p.2.ID) ∈ (saveLog (initDB seed) calls).map (fun p => (p.1, p.2.ID)) :=
      List.mem_map_of_mem _ hp
    rw [hlog] at hmem
    obtain ⟨k, _, hk⟩ := List.mem_map.mp hmem
    have h1 : (initDB seed).LastIndex + (k : Int) = p.1 := congrArg Prod.fst hk
    have h2 : (initDB seed).LastIndex + (k : Int) + 1 = p.2.ID := congrArg Prod.snd hk
    omega
  · have hpw : ((saveLog (initDB seed) calls).map (fun p => p.2.ID)).Pairwise (· < ·) := by
      rw [hids, List.pairwise_map]
      exact List.Pairwise.imp (fun {a b} hab => by omega) (List.pairwise_lt_range _)
    exact List.pairwise_map.mp hpw

/-- C2 (amended) on a save, a delete of the saved record and two more saves: the
identifiers returned are 101, 102, 103. -/
theorem saveLog_startup_witness :
    (saveLog (initDB [])
        [Call.save Campaign.zero, Call.delete 101, Call.save Campaign.zero,
          Call.save Campaign.zero]).map (fun p => p.2.ID)
      = [101, 102, 103] :=
  (saveLog_startup []
    [Call.save Campaign.zero, Call.delete 101, Call.save Campaign.zero,
      Call.save Campaign.zero] (by decide)).2.2

/-- C3. After `SaveCampaign` is called on `c1, ..., cN` in that order from the
startup state on any seed, `GetCampaigns` returns the seed campaigns in their
order followed by the `N` records the calls returned, in call order; the i-th of
them is `ci` with only its identifier replaced; the result has `|seed| + N`
elements. -/
theorem getCampaigns_after_saves (seed cs : List Campaign) :
    ((initDB seed).run (cs.map Call.save)).GetCampaigns.1
        = seed ++ (saveLog (initDB seed) (cs.map Call.save)).map Prod.snd
      ∧ List.Forall₂ (fun c stored => stored = { c with ID := stored.ID }) cs
          ((saveLog (initDB seed) (cs.map Call.save)).map Prod.snd)
      ∧ ((initDB seed).run (cs.map Call.save)).GetCampaigns.1.length
          = seed.length + cs.length := by
  have h1 := run_saves_campaigns (initDB seed) cs
  have h2 := saveLog_saves_records (initDB seed) cs
  refine ⟨h1, h2, ?_⟩
  show ((initDB seed).run (cs.map Call.save)).Campaigns.length = _
  rw [h1, List.length_append, ← h2.length_eq]
  rfl

/-- C4, refuted as stated: on a repository whose collection already holds a campaign
with identifier 101 and whose counter is 100, the lookup of the identifier just
assigned returns the older campaign, not the record that was saved. -/
theorem getCampaign_after_save_shadowed :
    (DB.GetCampaign
        (DB.SaveCampaign
          { Campaigns := [{ Campaign.zero with ID := 101, Name := "seed" }], LastIndex := 100 }
          Campaign.zero).2
        (DB.SaveCampaign
          { Campaigns := [{ Campaign.zero with ID := 101, Name := "seed" }], LastIndex := 100 }
          Campaign.zero).1.ID).1
      = (true, { Campaign.zero with ID := 101, Name := "seed" })
      ∧ (DB.SaveCampaign
          { Campaigns := [{ Campaign.zero with ID := 101, Name := "seed" }], LastIndex := 100 }
          Campaign.zero).1
        ≠ { Campaign.zero with ID := 101, Name := "seed" } := by
  decide

/-- C4, amended: if no campaign of the collection carries the identifier that
`SaveCampaign` assigns, then for the record `c'` returned by `SaveCampaign(c)`,
`GetCampaign(c'.ID)` on the resulting state returns `found = true` together with
`c'` itself, which is `c` except for the assigned identifier. -/
theorem getCampaign_after_save (d : DB) (c : Campaign)
    (h : ∀ x ∈ d.Campaigns, x.ID ≠ (d.SaveCampaign c).1.ID) :
    ((d.SaveCampaign c).2.GetCampaign (d.SaveCampaign c).1.ID).1 = (true, (d.SaveCampaign c).1)
      ∧ (d.SaveCampaign c).1 = { c with ID := (d.SaveCampaign c).1.ID } := by
  refine ⟨?_, rfl⟩
  exact getCampaignLoop_first _ d.Campaigns [] _ h rfl

/-- C4 (amended) on the startup state with one seed campaign of identifier 1. -/
theorem getCampaign_after_save_witness :
    (DB.GetCampaign
        (DB.SaveCampaign (initDB [{ Campaign.zero with ID := 1 }])
          { Campaign.zero with Name := "A" }).2 101).1
      = (true, { Campaign.zero with ID := 101, Name := "A" }) :=
  (getCampaign_after_save (initDB [{ Campaign.zero with ID := 1 }])
    { Campaign.zero with Name := "A" } (by decide)).1

/-- C5, refuted as stated: on a collection holding identifier 1 twice, after
`DeleteCampaign(1)` the lookup of 1 still finds a campaign and a second
`DeleteCampaign(1)` succeeds. -/
theorem deleteCampaign_duplicate_remains :
    ((DB.DeleteCampaign
        { Campaigns := [{ Campaign.zero with ID := 1 }, { Campaign.zero with ID := 1 }],
          LastIndex := 100 } 1).2.GetCampaign 1).1.1 = true
      ∧ ((DB.DeleteCampaign
        { Campaigns := [{ Campaign.zero with ID := 1 }, { Campaign.zero with ID := 1 }],
          LastIndex := 100 } 1).2.DeleteCampaign 1).1.2 = none := by
  decide

/-- C5, amended: for every identifier carried by exactly one campaign of the
collection, `DeleteCampaign(id)` succeeds and shortens the collection by exactly
one record; on the resulting state `GetCampaign(id)` returns not-found and a second
`DeleteCampaign(id)` fails with the not-found error. -/
theorem deleteCampaign_once (d : DB) (id : Int) (h : d.ids.count id = 1) :
    (d.DeleteCampaign id).1.2 = none
      ∧ (d.DeleteCampaign id).2.Campaigns.length + 1 = d.Campaigns.length
      ∧ ((d.DeleteCampaign id).2.GetCampaign id).1.1 = false
      ∧ ((d.DeleteCampaign id).2.DeleteCampaign id).1.2 = some (deleteError id) := by
  have hmem : id ∈ d.ids := List.count_pos_iff.mp (by omega)
  obtain ⟨pre, c, post, hsplit, hpre, hc⟩ :=
    exists_first_match id d.Campaigns ((mem_ids_iff d id).mp hmem)
  have hpost : ∀ x ∈ post, x.ID ≠ id := by
    intro x hx hid
    have hcount : (post.map Campaign.ID).count id = 0 := by
      have := h
      simp only [DB.ids, hsplit, List.map_append, List.map_cons, List.count_append,
        List.count_cons, hc] at this
      simp at this
      omega
    exact List.count_eq_zero.mp hcount (hid ▸ List.mem_map_of_mem _ hx)
  have hrest : ∀ x ∈ pre ++ post, x.ID ≠ id := by
    intro x hx
    rcases List.mem_append.mp hx with hx | hx
    · exact hpre x hx
    · exact hpost x hx
  have hdel := deleteCampaign_first d id pre post c hsplit hpre hc
  rw [hdel]
  refine ⟨rfl, by simp [hsplit]; omega, ?_, ?_⟩
  · simp only [DB.GetCampaign, getCampaignLoop_absent id (pre ++ post) hrest]
  · rw [deleteCampaign_absent _ id hrest]

/-- C5 (amended) on a three-record collection: deleting identifier 2. -/
theorem deleteCampaign_once_witness :
    ((DB.DeleteCampaign
        { Campaigns := [{ Campaign.zero with ID := 1 }, { Campaign.zero with ID := 2 },
            { Campaign.zero with ID := 3 }],
          LastIndex := 100 } 2).2.DeleteCampaign 2).1.2
      = some "Could not find campaign 2" :=
  (deleteCampaign_once
    { Campaigns := [{ Campaign.zero with ID := 1 }, { Campaign.zero with ID := 2 },
        { Campaign.zero with ID := 3 }],
      LastIndex := 100 } 2 (by decide)).2.2.2

/-- C7, refuted as stated: with a seed file holding a campaign of identifier 101,
one `SaveCampaign` from the startup state leaves two campaigns with identifier 101
in the collection. -/
theorem startup_ids_collide :
    ((initDB [{ Campaign.zero with ID := 101 }]).run [Call.save Campaign.zero]).ids
        = [101, 101]
      ∧ ¬ ((initDB [{ Campaign.zero with ID := 101 }]).run [Call.save Campaign.zero]).ids.Nodup := by
  decide

/-- C7, amended: if the identifiers of the seed collection are pairwise distinct and
none exceeds 100, then in every state reached from the startup state by a sequence
of `SaveCampaign` and `DeleteCampaign` calls with at most `2 ^ 63 - 101`
`SaveCampaign` calls, the identifiers held in the collection are pairwise
distinct. -/
theorem reachable_ids_nodup (seed : List Campaign) (calls : List Call)
    (hseed : (seed.map Campaign.ID).Nodup) (hlow : ∀ x ∈ seed, x.ID ≤ 100)
    (h : countSaves calls ≤ 2 ^ 63 - 101) :
    ((initDB seed).run calls).ids.Nodup := by
  have hinv : (initDB seed).DistinctBelowCounter := by
    refine ⟨hseed, fun i hi => ?_⟩
    obtain ⟨x, hx, rfl⟩ := (mem_ids_iff (initDB seed) i).mp hi
    exact hlow x hx
  have hlo : minInt ≤ (initDB seed).LastIndex := by
    show minInt ≤ 100
    decide
  have hhi : (initDB seed).LastIndex + countSaves calls ≤ maxInt := by
    have : (initDB seed).LastIndex = 100 := rfl
    rw [this]
    unfold maxInt
    omega
  exact (run_distinctBelowCounter (initDB seed) calls hinv hlo hhi).1

/-- C7 (amended) on a two-record seed, a save, a delete and another save. -/
theorem reachable_ids_nodup_witness :
    ((initDB [{ Campaign.zero with ID := 1 }, { Campaign.zero with ID := 2 }]).run
        [Call.save Campaign.zero, Call.delete 1, Call.save Campaign.zero]).ids.Nodup :=
  reachable_ids_nodup [{ Campaign.zero with ID := 1 }, { Campaign.zero with ID := 2 }]
    [Call.save Campaign.zero, Call.delete 1, Call.save Campaign.zero]
    (by decide) (by decide) (by decide)

/-- The startup state itself holds an identifier twice when the seed file does. -/
theorem startup_ids_repeat :
    ¬ (initDB [{ Campaign.zero with ID := 1 }, { Campaign.zero with ID := 1 }]).ids.Nodup := by
  decide

/-- With a seed campaign whose identifier is the smallest `int`, the last of
`2 ^ 63 - 100` consecutive `SaveCampaign` calls assigns that identifier again. -/
theorem reachable_ids_collide_after_overflow :
    ¬ ((initDB [{ Campaign.zero with ID := minInt }]).run
        (List.replicate (2 ^ 63 - 101) (Call.save Campaign.zero)
          ++ [Call.save Campaign.zero])).ids.Nodup := by
  have hcount := countSaves_replicate_save (2 ^ 63 - 101) Campaign.zero
  have hlast : ((initDB [{ Campaign.zero with ID := minInt }]).run
      (List.replicate (2 ^ 63 - 101) (Call.save Campaign.zero))).LastIndex = maxInt := by
    rw [run_lastIndex _ _ (by decide) (by rw [hcount]; decide), hcount]
    decide
  have hseed : minInt ∈ ((initDB [{ Campaign.zero with ID := minInt }]).run
      (List.replicate (2 ^ 63 - 101) (Call.save Campaign.zero))).ids := by
    have hmap : List.replicate (2 ^ 63 - 101) (Call.save Campaign.zero)
        = (List.replicate (2 ^ 63 - 101) Campaign.zero).map Call.save :=
      (List.map_replicate).symm
    rw [hmap, DB.ids, run_saves_campaigns, List.map_append]
    exact List.mem_append_left _ (List.mem_singleton_self _)
  have hwrap : wrapInt (maxInt + 1) = minInt := by decide
  rw [run_append]
  show ¬ (DB.SaveCampaign _ Campaign.zero).2.ids.Nodup
  rw [saveCampaign_ids, hlast, hwrap]
  intro hnodup
  exact (List.disjoint_of_nodup_append hnodup) hseed (List.mem_singleton_self _)

/-- C10, refuted as stated: with the counter at the largest `int`, the identifiers
of the collection are pairwise distinct and at most the counter, and after one
`SaveCampaign` the counter is the smallest `int`, below the identifier 1 still held
in the collection. -/
theorem distinctBelowCounter_lost_at_maxInt :
    DB.DistinctBelowCounter { Campaigns := [{ Campaign.zero with ID := 1 }], LastIndex := maxInt }
      ∧ ¬ DB.DistinctBelowCounter
          (DB.SaveCampaign
            { Campaigns := [{ Campaign.zero with ID := 1 }], LastIndex := maxInt }
            Campaign.zero).2 := by
  decide

/-- C10, amended: the predicate "the identifiers in the collection are pairwise
distinct and each is at most the counter" is preserved by `SaveCampaign(c)` for
every `c` whenever the counter is below the largest `int`, and by
`DeleteCampaign(id)` (successful or failing), `GetCampaign` and `GetCampaigns`
always. `initDB` does not establish it for every seed: not for one holding an
identifier above 100, nor for one repeating an identifier. -/
theorem distinctBelowCounter_preserved (d : DB) (h : d.DistinctBelowCounter) :
    (∀ c, d.LastIndex < maxInt → (d.SaveCampaign c).2.DistinctBelowCounter)
      ∧ (∀ id, (d.DeleteCampaign id).2.DistinctBelowCounter)
      ∧ (∀ id, (d.GetCampaign id).2.DistinctBelowCounter)
      ∧ d.GetCampaigns.2.DistinctBelowCounter
      ∧ ¬ (initDB [{ Campaign.zero with ID := 101 }]).DistinctBelowCounter
      ∧ ¬ (initDB [{ Campaign.zero with ID := 1 }, { Campaign.zero with ID := 1 }]).DistinctBelowCounter :=
  ⟨fun c hn => saveCampaign_distinctBelowCounter d c h hn,
    fun id => deleteCampaign_distinctBelowCounter d id h, fun _ => h, h,
    by decide, by decide⟩

/-- C10 (amended) on the startup state with one seed campaign: the predicate holds
after a `SaveCampaign`. -/
theorem distinctBelowCounter_preserved_witness :
    (DB.SaveCampaign (initDB [{ Campaign.zero with ID := 1 }])
      Campaign.zero).2.DistinctBelowCounter :=
  (distinctBelowCounter_preserved (initDB [{ Campaign.zero with ID := 1 }]) (by decide)).1
    Campaign.zero (by decide)

end GoRestApi
